import Mathlib

/-!
Verification development for the `parse!` declarative parsing engine of the
MaienM/AdventOfCode repository (documented in `src/puzzle_lib/src/parser.md`).
The macro's implementation is not present under `src/`; the engine below is a
shallow embedding modelled from the specification and from the behaviour the
documentation's examples pin down.  Regex-based separators/boundaries and
function-call transforms are outside the modelled fragment; nesting of parses
is modelled to depth one (a nested parse contains a non-nested section list),
which suffices for the stated properties.
-/

namespace AoCParse

/-- Target types of the `as type` typecast.  Modelled from the spec: only the
`u8` cast is needed by the properties under study. -/
inductive CastTy where
  | u8
deriving DecidableEq

/-- Runtime values produced by the engine: bound slices, parsed numbers,
characters, 2D points (column, row), tuples, optional values and
collections. -/
inductive Value where
  | strV (s : String)
  | natV (n : Nat)
  | chrV (c : Char)
  | pointV (x y : Nat)
  | pairV (a b : Value)
  | noneV
  | someV (v : Value)
  | listV (vs : List Value)

/-- Fatal error channel of the engine (panic semantics in the source). -/
inductive PError where
  | structural (msg : String)
  | literalNotFound (lit rem : String)
  | unconsumed (rem : String)
  | castFail (v : Value)
  | unmatched (v : Value)
  | unevenGrid
  | captureCardinality (name : String) (count : Nat)
  | takeShort (n : Nat)
  | unboundName (n : String)

/-- Insertion-ordered name-to-value bindings. -/
abbrev Bindings := List (String × Value)

/-- Look a name up in the bindings. -/
def lookupB (n : String) : Bindings → Option Value
  | [] => none
  | (m, v) :: rest => if m = n then some v else lookupB n rest

/-- Digit value of a character, if it is a decimal digit. -/
def digitVal (c : Char) : Option Nat :=
  if c.isDigit then some (c.toNat - Char.toNat '0') else none

/-- Parse a nonempty all-digit character list as a natural number. -/
def parseNatAux (acc : Nat) : List Char → Option Nat
  | [] => some acc
  | c :: rest =>
    match digitVal c with
    | some d => parseNatAux (acc * 10 + d) rest
    | none => none

/-- Parse a character list as a natural number (empty input fails). -/
def parseNatChars : List Char → Option Nat
  | [] => none
  | cs => parseNatAux 0 cs

/-- The `as type` typecast: built-in numeric parse for primitives.  `u8`
parses a decimal string (or single digit character) below 256. -/
def castV : CastTy → Value → Option Value
  | .u8, .strV s =>
    (parseNatChars s.data).bind (fun n => if n < 256 then some (.natV n) else none)
  | .u8, .chrV c => (digitVal c).map .natV
  | .u8, _ => none

/-- Classic delimiter split on a single separator character: `n` separators
yield `n + 1` chunks, empty chunks included, in order. -/
def classicSplit (c : Char) : List Char → List (List Char)
  | [] => [[]]
  | x :: xs =>
    let r := classicSplit c xs
    if x = c then [] :: r
    else
      match r with
      | [] => [[x]]
      | h :: t => (x :: h) :: t

/-- Find the first occurrence of the literal `l` in a character list,
returning the text before the occurrence and the text after it. -/
def findSep (l : List Char) : List Char → Option (List Char × List Char)
  | [] => if l.isEmpty then some ([], []) else none
  | x :: xs =>
    if l.isPrefixOf (x :: xs) then some ([], (x :: xs).drop l.length)
    else
      match findSep l xs with
      | some (pre, post) => some (x :: pre, post)
      | none => none

/-- Fuel-driven worker for the classic split on a multi-character literal. -/
def splitGo (l : List Char) : Nat → List Char → List (List Char)
  | 0, s => [s]
  | fuel + 1, s =>
    match findSep l s with
    | none => [s]
    | some (pre, post) => pre :: splitGo l fuel post

/-- Classic delimiter split on a literal character list (empty chunks kept).
An empty literal yields the whole input as a single chunk. -/
def classicSplitL (l : List Char) (s : List Char) : List (List Char) :=
  if l.isEmpty then [s] else splitGo l s.length s

/-- Accumulator-based scanner splitting on the space character, skipping
runs of spaces; implements the bare `split` shorthand independently. -/
def spaceSplitAux (acc : List Char) : List Char → List (List Char)
  | [] => if acc.isEmpty then [] else [acc.reverse]
  | x :: xs =>
    if x = ' ' then
      if acc.isEmpty then spaceSplitAux [] xs
      else acc.reverse :: spaceSplitAux [] xs
    else spaceSplitAux (x :: acc) xs

/-- Patterns of a match arm (literal, range or wildcard patterns). -/
inductive Pattern where
  | pstr (s : String)
  | pchar (c : Char)
  | pcharRange (lo hi : Char)
  | pnatLt (lo hi : Nat)
  | pnatLe (lo hi : Nat)
  | pwild
deriving DecidableEq

/-- Whether a pattern accepts a value. -/
def patMatches : Pattern → Value → Bool
  | .pstr t, .strV s => t == s
  | .pchar c, .chrV d => c == d
  | .pcharRange lo hi, .chrV d => decide (lo ≤ d) && decide (d ≤ hi)
  | .pnatLt lo hi, .natV n => decide (lo ≤ n) && decide (n < hi)
  | .pnatLe lo hi, .natV n => decide (lo ≤ n) && decide (n ≤ hi)
  | .pwild, _ => true
  | _, _ => false

/-- Cardinality policy of an index capture: `index into` (exactly one),
`try index into` (zero or one), `indexes into` (any number). -/
inductive CaptureKind where
  | one
  | tryOne
  | many
deriving DecidableEq

/-- Result side of a match arm: a constant expression, the matched value
itself, the literal `None`, a typecast, or a reference to a binding in the
enclosing scope. -/
inductive ArmResult where
  | constV (v : Value)
  | selfE
  | noneR
  | castR (t : CastTy)
  | varE (n : String)

/-- One arm of a `match` transformation: a pattern, an optional index-capture
instruction, and an optional result (absent result passes the value
through). -/
structure MatchArm where
  pat : Pattern
  capture : Option (CaptureKind × String)
  result : Option ArmResult

/-- Capture events recorded when an arm with an index-capture instruction is
selected while an element index is in scope. -/
def armEvents (cap : Option (CaptureKind × String)) (idx : Option Value) :
    List (String × Value) :=
  match cap, idx with
  | some (_, n), some i => [(n, i)]
  | _, _ => []

/-- Evaluate a match arm's result against the matched value and the current
bindings. -/
def evalArmResult (b : Bindings) (v : Value) : ArmResult → Except PError Value
  | .constV c => .ok c
  | .selfE => .ok v
  | .noneR => .ok .noneV
  | .castR t =>
    match castV t v with
    | some w => .ok w
    | none => .error (.castFail v)
  | .varE n =>
    match lookupB n b with
    | some w => .ok w
    | none => .error (.unboundName n)

/-- Evaluate the ordered arms against a value: the first arm whose pattern
accepts the value is selected; no accepting arm is a fatal error (the
implicit fallback arm panics with the unmatched value).  `idx` is the current
element index when operating inside a split/cells invocation; `tm` is the
`try match` mode, in which a `None` result is dropped (`none` output). -/
def matchValue (b : Bindings) (idx : Option Value) (tm : Bool) (v : Value) :
    List MatchArm → Except PError (Option Value × List (String × Value))
  | [] => .error (.unmatched v)
  | arm :: rest =>
    if patMatches arm.pat v then
      let evs := armEvents arm.capture idx
      match arm.result with
      | none => .ok (some v, evs)
      | some r =>
        match evalArmResult b v r with
        | .error e => .error e
        | .ok w =>
          if tm then
            match w with
            | .noneV => .ok (none, evs)
            | w' => .ok (some w', evs)
          else .ok (some w, evs)
    else matchValue b idx tm v rest

/-- Resolve one declared index capture from the values recorded for its name,
enforcing the cardinality policy. -/
def resolveCapture (k : CaptureKind) (name : String) (vals : List Value) :
    Except PError (String × Value) :=
  match k, vals with
  | .one, [v] => .ok (name, v)
  | .one, vs => .error (.captureCardinality name vs.length)
  | .tryOne, [] => .ok (name, .noneV)
  | .tryOne, [v] => .ok (name, .someV v)
  | .tryOne, vs => .error (.captureCardinality name vs.length)
  | .many, vs => .ok (name, .listV vs)

/-- Resolve all declared captures against the recorded events, in declaration
order; events for one name keep their element order. -/
def resolveCaptures (events : List (String × Value)) :
    List (CaptureKind × String) → Except PError Bindings
  | [] => .ok []
  | (k, n) :: rest => do
    let v ← resolveCapture k n ((events.filter (fun e => e.1 = n)).map (fun e => e.2))
    let others ← resolveCaptures events rest
    .ok (v :: others)

mutual

/-- Structural equality of values. -/
def Value.beq : Value → Value → Bool
  | .strV a, .strV b => a == b
  | .natV a, .natV b => a == b
  | .chrV a, .chrV b => a == b
  | .pointV a b, .pointV c d => a == c && b == d
  | .pairV a b, .pairV c d => a.beq c && b.beq d
  | .noneV, .noneV => true
  | .someV a, .someV b => a.beq b
  | .listV as, .listV bs => Value.beqList as bs
  | _, _ => false

/-- Structural equality of value lists. -/
def Value.beqList : List Value → List Value → Bool
  | [], [] => true
  | x :: xs, y :: ys => x.beq y && Value.beqList xs ys
  | _, _ => false

end

/-- Keep the first occurrence of each value, in order (set collection
semantics of a hash-set destination, modelled as an ordered list). -/
def dedupAux (seen : List Value) : List Value → List Value
  | [] => []
  | v :: vs =>
    if seen.any (fun w => w.beq v) then dedupAux seen vs
    else v :: dedupAux (v :: seen) vs

/-- Deduplicate a list of values, keeping first occurrences in order. -/
def dedupV (vs : List Value) : List Value := dedupAux [] vs

/-- Per-element transformation of a split/cells invocation.  The `try` forms
drop failing elements (respectively `None` match results) instead of
aborting. -/
inductive ElemTransform where
  | noneT
  | castE (t : CastTy)
  | tryCastE (t : CastTy)
  | matchE (arms : List MatchArm)
  | tryMatchE (arms : List MatchArm)

/-- The thing a split splits on: the bare `split` shorthand, a literal
string or character separator, or per-character iteration.  Modelled from
the spec: regex separators are outside the modelled fragment. -/
inductive Separator where
  | bare
  | onStr (s : String)
  | onChar (c : Char)
  | chars

/-- Destination shape of a split: lazy iterator, collected vector (the
default), or collected set. -/
inductive Dest where
  | iterator
  | collectVec
  | collectSet
deriving DecidableEq

/-- Specification of a `split` transformation. -/
structure SplitSpec where
  sep : Separator
  indexed : Bool
  dest : Dest
  elem : ElemTransform

/-- Specification of a `cells` transformation. -/
structure CellsSpec where
  indexed : Bool
  elem : ElemTransform

/-- The index captures declared by an element transformation's match arms. -/
def elemCaptures : ElemTransform → List (CaptureKind × String)
  | .matchE arms => arms.filterMap (fun a => a.capture)
  | .tryMatchE arms => arms.filterMap (fun a => a.capture)
  | _ => []

/-- The transformation input for one element: the raw value, paired with its
index when the invocation is `indexed`. -/
def elemInput (indexed : Bool) (idx : Value) (raw : Value) : Value :=
  if indexed then .pairV idx raw else raw

/-- Apply one element transformation to one element.  `none` output means the
element is dropped (only the `try` forms do this); errors are fatal. -/
def applyElemT (b : Bindings) (e : ElemTransform) (idx : Value) (indexed : Bool)
    (raw : Value) : Except PError (Option Value × List (String × Value)) :=
  let input := elemInput indexed idx raw
  match e with
  | .noneT => .ok (some input, [])
  | .castE t =>
    match castV t input with
    | some w => .ok (some w, [])
    | none => .error (.castFail input)
  | .tryCastE t => .ok (castV t input, [])
  | .matchE arms => matchValue b (some idx) false input arms
  | .tryMatchE arms => matchValue b (some idx) true input arms

/-- Run the element transformation over an indexed element list, collecting
the surviving outputs in order together with all capture events. -/
def runElems (b : Bindings) (e : ElemTransform) (indexed : Bool) :
    List (Value × Value) → Except PError (List Value × List (String × Value))
  | [] => .ok ([], [])
  | (idx, raw) :: rest => do
    let (out?, evs) ← applyElemT b e idx indexed raw
    let (outs, evss) ← runElems b e indexed rest
    match out? with
    | some o => .ok (o :: outs, evs ++ evss)
    | none => .ok (outs, evs ++ evss)

/-- Raw elements a separator produces from a slice, in order.  Literal and
character separators discard the empty artifacts the separator introduces;
`chars` yields one element per character. -/
def sepElemsRaw : Separator → List Char → List Value
  | .bare, s => (spaceSplitAux [] s).map (fun cs => .strV (String.mk cs))
  | .onStr t, s =>
    ((classicSplitL t.data s).filter (fun cs => !cs.isEmpty)).map
      (fun cs => .strV (String.mk cs))
  | .onChar c, s =>
    ((classicSplit c s).filter (fun cs => !cs.isEmpty)).map
      (fun cs => .strV (String.mk cs))
  | .chars, s => s.map .chrV

/-- Run a split invocation on a slice: produce the separator's elements,
enumerate them, apply the element transformation, resolve the declared index
captures, and collect into the destination shape.  Returns the collection
value together with the capture bindings. -/
def runSplit (b : Bindings) (spec : SplitSpec) (s : List Char) :
    Except PError (Value × Bindings) := do
  let raw := sepElemsRaw spec.sep s
  let items := raw.enum.map (fun p => (Value.natV p.1, p.2))
  let (outs, evs) ← runElems b spec.elem spec.indexed items
  let caps ← resolveCaptures evs (elemCaptures spec.elem)
  match spec.dest with
  | .collectSet => .ok (.listV (dedupV outs), caps)
  | _ => .ok (.listV outs, caps)

/-- Run the per-cell transformation over one row of an enumerated grid; a
dropped cell would break rectangularity and is a fatal (structurally
rejected) condition. -/
def runCellRow (b : Bindings) (e : ElemTransform) (indexed : Bool) (y : Nat) :
    List (Nat × Char) → Except PError (List Value × List (String × Value))
  | [] => .ok ([], [])
  | (x, c) :: rest => do
    let (out?, evs) ← applyElemT b e (.pointV x y) indexed (.chrV c)
    let (outs, evss) ← runCellRow b e indexed y rest
    match out? with
    | some o => .ok (o :: outs, evs ++ evss)
    | none => .error (.structural "cells transform may not drop cells")

/-- Run the per-cell transformation over all enumerated rows. -/
def runCellsRows (b : Bindings) (e : ElemTransform) (indexed : Bool) :
    List (Nat × List Char) → Except PError (List Value × List (String × Value))
  | [] => .ok ([], [])
  | (y, row) :: rest => do
    let (cells, evs) ← runCellRow b e indexed y row.enum
    let (rows, evss) ← runCellsRows b e indexed rest
    .ok (.listV cells :: rows, evs ++ evss)

/-- Run a cells invocation on a slice: each line is a row and each character
a cell; all rows must have equal length, else fatal.  Each cell's 2D index is
the point (column, row). -/
def runCells (b : Bindings) (spec : CellsSpec) (s : List Char) :
    Except PError (Value × Bindings) :=
  let rows := classicSplit '\n' s
  let w := (rows.headD []).length
  if rows.all (fun r => r.length = w) then do
    let (cells, evs) ← runCellsRows b spec.elem spec.indexed rows.enum
    let caps ← resolveCaptures evs (elemCaptures spec.elem)
    .ok (.listV cells, caps)
  else .error .unevenGrid

/-- Result expression of a (nested) parse invocation, evaluated against the
bindings that invocation produced. -/
inductive RExpr where
  | constE (v : Value)
  | varE (n : String)
  | pairE (a b : RExpr)

/-- Names a result expression references. -/
def rexprVars : RExpr → List String
  | .constE _ => []
  | .varE n => [n]
  | .pairE a b => rexprVars a ++ rexprVars b

/-- Evaluate a result expression against bindings; an unbound name is a
fatal error. -/
def evalRExpr (b : Bindings) : RExpr → Except PError Value
  | .constE v => .ok v
  | .varE n =>
    match lookupB n b with
    | some w => .ok w
    | none => .error (.unboundName n)
  | .pairE x y => do
    let a ← evalRExpr b x
    let c ← evalRExpr b y
    .ok (.pairV a c)

/-- A transformation applied to a bound slice.  The type parameter is the
payload of a nested parse, letting nesting depth be made explicit: depth
zero uses `Empty` (no nested parses), depth one carries a depth-zero section
list plus a result expression.  Modelled from the spec: function-call
transforms are outside the modelled fragment. -/
inductive Transform (ν : Type) where
  | castT (t : CastTy)
  | matchT (arms : List MatchArm)
  | splitT (spec : SplitSpec)
  | cellsT (spec : CellsSpec)
  | nestedT (pl : ν)

/-- How an assignment bounds its slice: up to the next boundary (or end of
input), or a fixed number of bytes.  Modelled from the spec: regex
`matching`/`capturing` modes are outside the modelled fragment. -/
inductive AssignMode where
  | whole
  | takeN (n : Nat)

/-- A literal: fixed string or single character. -/
inductive Lit where
  | litS (s : String)
  | litC (c : Char)

/-- One grammar section: a literal (prefix strip or boundary), or a named
assignment with an optional transformation, generic over the transformation
type. -/
inductive SectionG (τ : Type) where
  | lit (l : Lit)
  | assign (name : String) (mode : AssignMode) (t : Option τ)

/-- Characters of a literal. -/
def litChars : Lit → List Char
  | .litS s => s.data
  | .litC c => [c]

/-- String form of a literal (for error messages). -/
def litText (l : Lit) : String := String.mk (litChars l)

/-- Strip a literal as a required prefix of the remaining input. -/
def stripLit (l : Lit) (rem : List Char) : Option (List Char) :=
  let lc := litChars l
  if lc.isPrefixOf rem then some (rem.drop lc.length) else none

/-- Apply a section's optional transformation to its bound slice; without a
transformation the slice itself is bound. -/
def applySecT (applyT : Bindings → τ → Value → Except PError (Value × Bindings))
    (b : Bindings) (t : Option τ) (slice : List Char) :
    Except PError (Value × Bindings) :=
  match t with
  | none => .ok (.strV (String.mk slice), [])
  | some tr => applyT b tr (.strV (String.mk slice))

/-- The Section Sequencer: drive the cursor (the remaining character list)
across the sections in order.  A leading/boundary-skipping literal is a
required prefix; a whole-mode assignment followed by a literal is bounded by
the first occurrence of that literal (which is consumed and discarded); a
whole-mode assignment not followed by a literal takes the entire remainder;
a take-mode assignment takes a fixed number of characters.  Returns the
accumulated bindings and the unconsumed remainder. -/
def runSecs (applyT : Bindings → τ → Value → Except PError (Value × Bindings)) :
    List (SectionG τ) → List Char → Bindings → Except PError (Bindings × List Char)
  | [], rem, b => .ok (b, rem)
  | .lit l :: rest, rem, b =>
    match stripLit l rem with
    | some rem' => runSecs applyT rest rem' b
    | none => .error (.literalNotFound (litText l) (String.mk rem))
  | .assign n .whole t :: .lit l :: rest, rem, b =>
    match findSep (litChars l) rem with
    | none => .error (.literalNotFound (litText l) (String.mk rem))
    | some (pre, post) =>
      match applySecT applyT b t pre with
      | .error e => .error e
      | .ok (v, caps) => runSecs applyT rest post (b ++ (n, v) :: caps)
  | [.assign n .whole t], rem, b =>
    match applySecT applyT b t rem with
    | .error e => .error e
    | .ok (v, caps) => .ok (b ++ (n, v) :: caps, [])
  | .assign n .whole t :: rest, rem, b =>
    match applySecT applyT b t rem with
    | .error e => .error e
    | .ok (v, caps) => runSecs applyT rest [] (b ++ (n, v) :: caps)
  | .assign n (.takeN k) t :: rest, rem, b =>
    if k ≤ rem.length then
      match applySecT applyT b t (rem.take k) with
      | .error e => .error e
      | .ok (v, caps) => runSecs applyT rest (rem.drop k) (b ++ (n, v) :: caps)
    else .error (.takeShort k)

/-- The Transformation Engine, generic over a runner for nested-parse
payloads.  Split/cells transforms apply to string slices; their index
captures surface as extra bindings alongside the transformed value.  A
nested parse's runner receives only the payload and the matched value: the
enclosing bindings are not passed to it. -/
def applyTG (runN : ν → Value → Except PError Value) (b : Bindings) :
    Transform ν → Value → Except PError (Value × Bindings)
  | .castT t, v =>
    match castV t v with
    | some w => .ok (w, [])
    | none => .error (.castFail v)
  | .matchT arms, v =>
    match matchValue b none false v arms with
    | .error e => .error e
    | .ok (some o, _) => .ok (o, [])
    | .ok (none, _) => .ok (.noneV, [])
  | .splitT spec, .strV s => runSplit b spec s.data
  | .splitT _, v => .error (.castFail v)
  | .cellsT spec, .strV s => runCells b spec s.data
  | .cellsT _, v => .error (.castFail v)
  | .nestedT pl, v =>
    match runN pl v with
    | .ok w => .ok (w, [])
    | .error e => .error e

/-- Depth-zero sections: no nested parses. -/
abbrev Section0 := SectionG (Transform Empty)

/-- Depth-zero transform application (the `Empty` payload is uninhabited). -/
def applyT0 : Bindings → Transform Empty → Value → Except PError (Value × Bindings) :=
  applyTG (fun pl _ => pl.elim)

/-- Run a depth-zero section list on a character list with a fresh cursor
and fresh (empty) bindings. -/
def parse0core (secs : List Section0) (s : List Char) :
    Except PError (Bindings × List Char) :=
  runSecs applyT0 secs s []

/-- Payload of a depth-one nested parse: its own section list and result
expression. -/
abbrev Payload1 := List Section0 × RExpr

/-- Run a nested parse: the Sequencer is invoked on the matched substring
with a fresh cursor and fresh bindings, must fully consume the substring,
and its result expression is evaluated against its own bindings only. -/
def runNested1 (pl : Payload1) (v : Value) : Except PError Value :=
  match v with
  | .strV s =>
    match parse0core pl.1 s.data with
    | .ok (bi, rem) =>
      if rem.isEmpty then evalRExpr bi pl.2
      else .error (.unconsumed (String.mk rem))
    | .error e => .error e
  | w => .error (.castFail w)

/-- Depth-one transform application. -/
def applyT1 : Bindings → Transform Payload1 → Value → Except PError (Value × Bindings) :=
  applyTG runNested1

/-- Top-level sections: assignments may carry one level of nested parse. -/
abbrev Section1 := SectionG (Transform Payload1)

/-- Whether a split specification is structurally valid: the lazy `into
iterator` destination may not be combined with an index-capturing match
(the captures would only happen while the caller consumes the iterator). -/
def validSplitSpec (spec : SplitSpec) : Bool :=
  match spec.dest with
  | .iterator => (elemCaptures spec.elem).isEmpty
  | _ => true

/-- Whether a cells element transformation is structurally valid: the
filtering `try` forms would break rectangularity and are rejected. -/
def validCellsElem : ElemTransform → Bool
  | .tryCastE _ => false
  | .tryMatchE _ => false
  | _ => true

/-- Whether a cells specification is structurally valid (`indexed` also
makes the transformation mandatory). -/
def validCellsSpec (spec : CellsSpec) : Bool :=
  validCellsElem spec.elem &&
    (if spec.indexed then
      match spec.elem with
      | .noneT => false
      | _ => true
    else true)

/-- Whether no arm carries an index-capture instruction (required of a match
used outside a split/cells invocation). -/
def armsNoCapture (arms : List MatchArm) : Bool :=
  arms.all (fun a => a.capture.isNone)

/-- Structural validation of one transformation, generic over the check for
nested-parse payloads. -/
def validateTG (checkNested : ν → Bool) : Transform ν → Bool
  | .castT _ => true
  | .matchT arms => armsNoCapture arms
  | .splitT spec => validSplitSpec spec
  | .cellsT spec => validCellsSpec spec
  | .nestedT pl => checkNested pl

/-- Structural validation of a section list, generic over the nested-payload
check: performed when the section list is assembled, before any input is
touched. -/
def validateSecsG (checkNested : ν → Bool)
    (secs : List (SectionG (Transform ν))) : Bool :=
  secs.all (fun s =>
    match s with
    | .lit _ => true
    | .assign _ _ none => true
    | .assign _ _ (some t) => validateTG checkNested t)

/-- Validation of depth-zero sections. -/
def validate0 : List Section0 → Bool :=
  validateSecsG (fun pl => pl.elim)

/-- Capture names a transformation introduces as sibling bindings. -/
def transformCaptureNames : Transform ν → List String
  | .splitT spec => (elemCaptures spec.elem).map (fun c => c.2)
  | .cellsT spec => (elemCaptures spec.elem).map (fun c => c.2)
  | .matchT arms => (arms.filterMap (fun a => a.capture)).map (fun c => c.2)
  | _ => []

/-- Names a depth-zero section list binds (assignment names and capture
names). -/
def boundNames0 (secs : List Section0) : List String :=
  secs.flatMap (fun s =>
    match s with
    | .lit _ => []
    | .assign n _ none => [n]
    | .assign n _ (some t) => n :: transformCaptureNames t)

/-- Construction-time check of a nested parse: its sections must validate
and its result expression may reference only names bound by those sections
(an out-of-scope name is a construction-time error). -/
def checkNested1 (pl : Payload1) : Bool :=
  validate0 pl.1 && (rexprVars pl.2).all (fun n => (boundNames0 pl.1).contains n)

/-- Validation of top-level sections. -/
def validate1 : List Section1 → Bool :=
  validateSecsG checkNested1

/-- The `parse!` entry point: validate the section list structurally, run the
Sequencer over the input, and assert that the input is fully consumed —
unconsumed trailing input is a fatal error naming the unconsumed text. -/
def parse (input : String) (sections : List Section1) : Except PError Bindings :=
  if validate1 sections then
    match runSecs applyT1 sections input.data [] with
    | .ok (b, rem) =>
      if rem.isEmpty then .ok b else .error (.unconsumed (String.mk rem))
    | .error e => .error e
  else .error (.structural "invalid section list")

/-!  Theorems about the engine. -/

/-- C1: after the last section the engine asserts exhaustion — a nonempty
remainder makes the parse fail fatally with an error naming the unconsumed
text, and a section list that exactly accounts for the whole input never
fails on this condition (the parse succeeds with its bindings). -/
theorem c1_full_consumption (input : String) (sections : List Section1)
    (hv : validate1 sections = true) :
    (∀ b rem, runSecs applyT1 sections input.data [] = .ok (b, rem) → rem ≠ [] →
        parse input sections = .error (.unconsumed (String.mk rem)))
    ∧ (∀ b, runSecs applyT1 sections input.data [] = .ok (b, []) →
        parse input sections = .ok b) := by
  constructor
  · intro b rem hrun hne
    cases rem with
    | nil => exact absurd rfl hne
    | cons x xs => simp [parse, hv, hrun]
  · intro b hrun
    simp [parse, hv, hrun]

/-- Witness for C1 at a concrete input with trailing unconsumed text. -/
theorem c1_full_consumption_witness :
    parse "abc" [SectionG.lit (Lit.litS "ab")] = .error (.unconsumed "c") :=
  (c1_full_consumption "abc" [SectionG.lit (Lit.litS "ab")] (by rfl)).1
    [] ['c'] (by rfl) (by decide)

/-- C2: combining the lazy `into iterator` destination with an
index-capturing match is rejected when the section list is validated, before
any input string is processed: the section list fails structural validation
and, for every input, the parse reports the structural error without the
input being examined. -/
theorem c2_iterator_capture_rejected
    (sections : List Section1) (n : String) (mode : AssignMode) (spec : SplitSpec)
    (hmem : SectionG.assign n mode (some (Transform.splitT spec)) ∈ sections)
    (hdest : spec.dest = Dest.iterator)
    (hcap : elemCaptures spec.elem ≠ []) :
    validate1 sections = false ∧
      ∀ input, parse input sections = .error (.structural "invalid section list") := by
  have hval : validate1 sections = false := by
    apply Bool.eq_false_iff.mpr
    intro htrue
    have hsec := List.all_eq_true.mp htrue _ hmem
    simp [validateTG, validSplitSpec, hdest, List.isEmpty_iff] at hsec
    exact hcap hsec
  exact ⟨hval, fun input => by simp [parse, hval]⟩

/-- Witness for C2 on a concrete lazy-destination, index-capturing split. -/
theorem c2_iterator_capture_rejected_witness :
    parse "1 2" [SectionG.assign "items" .whole (some (Transform.splitT
      ⟨.bare, false, .iterator,
        .matchE [⟨.pstr "1", some (.one, "idx"), none⟩, ⟨.pwild, none, none⟩]⟩))] =
      .error (.structural "invalid section list") :=
  (c2_iterator_capture_rejected _ "items" .whole _
    (List.mem_singleton.mpr rfl) rfl (by decide)).2 "1 2"

/-- C3: cardinality of index captures inside a split/cells invocation —
`index into name` requires exactly one match (zero or several are fatal),
`try index into name` makes zero matches an absent value (two or more are
fatal), and `indexes into name` collects any number of matches in element
order.  Concretely, splitting "1 2 | 30 4" on a space with the arm
matching "|" capturing `idx` and producing 0, falling back to `as u8`,
yields the sequence [1, 2, 0, 30, 4] and binds `idx` to 2. -/
theorem c3_index_capture_cardinality :
    (∀ (name : String) (v : Value), resolveCapture .one name [v] = .ok (name, v)) ∧
    (∀ name : String, resolveCapture .one name [] =
        .error (.captureCardinality name 0)) ∧
    (∀ (name : String) (v w : Value) (vs : List Value),
        resolveCapture .one name (v :: w :: vs) =
          .error (.captureCardinality name (vs.length + 2))) ∧
    (∀ name : String, resolveCapture .tryOne name [] = .ok (name, .noneV)) ∧
    (∀ (name : String) (v : Value), resolveCapture .tryOne name [v] =
        .ok (name, .someV v)) ∧
    (∀ (name : String) (v w : Value) (vs : List Value),
        resolveCapture .tryOne name (v :: w :: vs) =
          .error (.captureCardinality name (vs.length + 2))) ∧
    (∀ (name : String) (vs : List Value), resolveCapture .many name vs =
        .ok (name, .listV vs)) ∧
    parse "1 2 | 30 4" [SectionG.assign "nums" .whole (some (Transform.splitT
      ⟨.onChar ' ', false, .collectVec,
        .matchE [⟨.pstr "|", some (.one, "idx"), some (.constV (.natV 0))⟩,
                 ⟨.pwild, none, some (.castR .u8)⟩]⟩))] =
      .ok [("nums", .listV [.natV 1, .natV 2, .natV 0, .natV 30, .natV 4]),
           ("idx", .natV 2)] ∧
    parse "1 2" [SectionG.assign "nums" .whole (some (Transform.splitT
      ⟨.onChar ' ', false, .collectVec,
        .matchE [⟨.pstr "|", some (.tryOne, "idx"), some (.constV (.natV 0))⟩,
                 ⟨.pwild, none, some (.castR .u8)⟩]⟩))] =
      .ok [("nums", .listV [.natV 1, .natV 2]), ("idx", .noneV)] ∧
    parse "| |" [SectionG.assign "nums" .whole (some (Transform.splitT
      ⟨.onChar ' ', false, .collectVec,
        .matchE [⟨.pstr "|", some (.one, "idx"), some (.constV (.natV 0))⟩,
                 ⟨.pwild, none, some (.castR .u8)⟩]⟩))] =
      .error (.captureCardinality "idx" 2) ∧
    parse "a b a" [SectionG.assign "words" .whole (some (Transform.splitT
      ⟨.onChar ' ', false, .collectVec,
        .matchE [⟨.pstr "a", some (.many, "xs"), none⟩,
                 ⟨.pwild, none, none⟩]⟩))] =
      .ok [("words", .listV [.strV "a", .strV "b", .strV "a"]),
           ("xs", .listV [.natV 0, .natV 2])] := by
  refine ⟨fun name v => rfl, fun name => rfl, fun name v w vs => rfl,
    fun name => rfl, fun name v => rfl, fun name v w vs => rfl,
    fun name vs => ?_, rfl, rfl, rfl, rfl⟩
  cases vs with
  | nil => rfl
  | cons x xs => cases xs <;> rfl

/-- C4: cells parsing treats each line of the bound slice as a row and each
character as a cell and requires all rows to have equal length: whenever the
lines of the slice are not all of the first line's length the invocation
fails fatally with the uneven-grid error, and concretely "012\n345" with a
per-cell `as u8` yields the 2-by-3 grid [[0,1,2],[3,4,5]] while "01\n234"
fails fatally. -/
theorem c4_cells_rectangular (b : Bindings) (spec : CellsSpec) (s : List Char)
    (huneven : (classicSplit '\n' s).all
        (fun r => r.length = ((classicSplit '\n' s).headD []).length) = false) :
    runCells b spec s = .error .unevenGrid ∧
    parse "012\n345" [SectionG.assign "grid" .whole
        (some (Transform.cellsT ⟨false, .castE .u8⟩))] =
      .ok [("grid", .listV [.listV [.natV 0, .natV 1, .natV 2],
                            .listV [.natV 3, .natV 4, .natV 5]])] ∧
    parse "01\n234" [SectionG.assign "grid" .whole
        (some (Transform.cellsT ⟨false, .castE .u8⟩))] =
      .error .unevenGrid := by
  refine ⟨?_, rfl, rfl⟩
  simp only [runCells, huneven]
  rfl

/-- Witness for C4 at the concrete uneven input "01\n234". -/
theorem c4_cells_rectangular_witness :
    runCells [] ⟨false, ElemTransform.castE .u8⟩ "01\n234".data =
      .error .unevenGrid :=
  (c4_cells_rectangular [] ⟨false, .castE .u8⟩ "01\n234".data (by rfl)).1

/-- C5: in an indexed cells invocation every cell is paired with its 2D
coordinate in (column, row) order before the per-cell transformation runs —
a pass-through transformation over a row of enumerated cells observes
exactly the (point, character) pairs — and index-capturing match arms
record that 2D point: on "012\n345" the captured index of the cell '3' is
the point (0, 1). -/
theorem c5_cells_indexed_points :
    (∀ (b : Bindings) (y : Nat) (cells : List (Nat × Char)),
        runCellRow b (.matchE [⟨.pwild, none, none⟩]) true y cells =
          .ok (cells.map (fun p => .pairV (.pointV p.1 y) (.chrV p.2)), [])) ∧
    parse "012\n345" [SectionG.assign "grid" .whole
        (some (Transform.cellsT ⟨true, .matchE [⟨.pwild, none, none⟩]⟩))] =
      .ok [("grid", .listV
        [.listV [.pairV (.pointV 0 0) (.chrV '0'), .pairV (.pointV 1 0) (.chrV '1'),
                 .pairV (.pointV 2 0) (.chrV '2')],
         .listV [.pairV (.pointV 0 1) (.chrV '3'), .pairV (.pointV 1 1) (.chrV '4'),
                 .pairV (.pointV 2 1) (.chrV '5')]])] ∧
    parse "012\n345" [SectionG.assign "grid" .whole
        (some (Transform.cellsT ⟨false,
          .matchE [⟨.pchar '3', some (.one, "start"), none⟩, ⟨.pwild, none, none⟩]⟩))] =
      .ok [("grid", .listV [.listV [.chrV '0', .chrV '1', .chrV '2'],
                            .listV [.chrV '3', .chrV '4', .chrV '5']]),
           ("start", .pointV 0 1)] := by
  refine ⟨?_, rfl, rfl⟩
  intro b y cells
  induction cells with
  | nil => rfl
  | cons p rest ih =>
    obtain ⟨x, c⟩ := p
    simp [runCellRow, ih, applyElemT, elemInput, matchValue, patMatches, armEvents,
      Bind.bind, Except.bind]

/-- Rejoin chunks with the separator between them (the inverse of a classic
delimiter split). -/
def joinSep (l : List Char) : List (List Char) → List Char
  | [] => []
  | x :: xs => x ++ (xs.map (fun y => l ++ y)).flatten

/-- Rejoining two or more chunks puts one separator between the first two. -/
theorem joinSep_cons₂ (l a h : List Char) (t : List (List Char)) :
    joinSep l (a :: h :: t) = a ++ l ++ joinSep l (h :: t) := by
  simp [joinSep, List.append_assoc]

/-- A classic split always yields at least one chunk. -/
theorem classicSplit_ne_nil (c : Char) (s : List Char) : classicSplit c s ≠ [] := by
  cases s with
  | nil => simp [classicSplit]
  | cons x xs =>
    simp only [classicSplit]
    split
    · simp
    · split <;> simp

/-- Rejoining the classic character split with the separator recovers the
input: the split loses nothing and keeps the chunks in order. -/
theorem joinSep_classicSplit (c : Char) (s : List Char) :
    joinSep [c] (classicSplit c s) = s := by
  induction s with
  | nil => simp [classicSplit, joinSep]
  | cons x xs ih =>
    cases hr : classicSplit c xs with
    | nil => exact absurd hr (classicSplit_ne_nil c xs)
    | cons h t =>
      rw [hr] at ih
      by_cases hx : x = c
      · subst hx
        have hs : classicSplit x (x :: xs) = [] :: h :: t := by
          simp [classicSplit, hr]
        rw [hs, joinSep_cons₂, ih]
        rfl
      · simp only [classicSplit, if_neg hx, hr]
        cases t with
        | nil =>
          simp [joinSep] at ih ⊢
          simp [ih]
        | cons h2 t2 =>
          rw [joinSep_cons₂] at ih
          rw [joinSep_cons₂, List.cons_append, List.cons_append, ih]

/-- No chunk of the classic character split contains the separator. -/
theorem sep_not_mem_classicSplit (c : Char) (s : List Char) :
    ∀ e ∈ classicSplit c s, c ∉ e := by
  induction s with
  | nil =>
    intro e he
    simp [classicSplit] at he
    simp [he]
  | cons x xs ih =>
    intro e he
    cases hr : classicSplit c xs with
    | nil => exact absurd hr (classicSplit_ne_nil c xs)
    | cons h t =>
      by_cases hx : x = c
      · subst hx
        simp only [classicSplit, if_pos rfl, hr] at he
        rcases List.mem_cons.mp he with he | he
        · simp [he]
        · exact ih e (by rw [hr]; exact he)
      · simp only [classicSplit, if_neg hx, hr] at he
        rcases List.mem_cons.mp he with he | he
        · subst he
          intro hc
          rcases List.mem_cons.mp hc with h1 | h1
          · exact hx h1.symm
          · exact ih h (by rw [hr]; exact List.mem_cons_self h t) h1
        · exact ih e (by rw [hr]; exact List.mem_cons_of_mem h he)

/-- A successful literal search decomposes the input as the text before the
occurrence, the literal, and the text after it. -/
theorem findSep_eq (l : List Char) :
    ∀ (s pre post : List Char), findSep l s = some (pre, post) →
      pre ++ l ++ post = s := by
  intro s
  induction s with
  | nil =>
    intro pre post h
    simp only [findSep] at h
    split at h
    · rename_i hl
      rw [Option.some.injEq, Prod.mk.injEq] at h
      obtain ⟨h1, h2⟩ := h
      subst h1; subst h2
      simp [List.isEmpty_iff.mp hl]
    · simp at h
  | cons x xs ih =>
    intro pre post h
    simp only [findSep] at h
    split at h
    · rename_i hpref
      obtain ⟨t, ht⟩ := List.isPrefixOf_iff_prefix.mp hpref
      rw [Option.some.injEq, Prod.mk.injEq] at h
      obtain ⟨h1, h2⟩ := h
      subst h1; subst h2
      rw [← ht, List.drop_left]
      simp
    · cases hf : findSep l xs with
      | none => rw [hf] at h; simp at h
      | some pp =>
        obtain ⟨pre', post'⟩ := pp
        rw [hf, Option.some.injEq, Prod.mk.injEq] at h
        obtain ⟨h1, h2⟩ := h
        subst h1; subst h2
        have hx := ih pre' post' hf
        simp only [List.cons_append, List.append_assoc] at hx ⊢
        rw [hx]

/-- The fuel-driven literal split always yields at least one chunk. -/
theorem splitGo_ne_nil (l : List Char) (fuel : Nat) (s : List Char) :
    splitGo l fuel s ≠ [] := by
  cases fuel with
  | zero => simp [splitGo]
  | succ n =>
    simp only [splitGo]
    split <;> simp

/-- Rejoining the fuel-driven literal split recovers the input, given enough
fuel and a nonempty literal. -/
theorem splitGo_join (l : List Char) (hl : l ≠ []) :
    ∀ (fuel : Nat) (s : List Char), s.length ≤ fuel →
      joinSep l (splitGo l fuel s) = s := by
  intro fuel
  induction fuel with
  | zero => intro s hs; simp [splitGo, joinSep]
  | succ n ih =>
    intro s hs
    cases hf : findSep l s with
    | none => simp [splitGo, hf, joinSep]
    | some pp =>
      obtain ⟨pre, post⟩ := pp
      have heq := findSep_eq l s pre post hf
      have hlen : post.length ≤ n := by
        have hs' : s.length = pre.length + (l.length + post.length) := by
          rw [← heq]; simp [List.length_append]
        have hl1 : 1 ≤ l.length := by
          cases l with
          | nil => exact absurd rfl hl
          | cons a b => simp
        omega
      simp only [splitGo, hf]
      cases hsp : splitGo l n post with
      | nil => exact absurd hsp (splitGo_ne_nil l n post)
      | cons h t =>
        rw [joinSep_cons₂, ← hsp, ih post hlen]
        exact heq

/-- Rejoining the classic literal split recovers the input for a nonempty
literal. -/
theorem joinSep_classicSplitL (l : List Char) (hl : l ≠ []) (s : List Char) :
    joinSep l (classicSplitL l s) = s := by
  have : l.isEmpty = false := by
    cases l with
    | nil => exact absurd rfl hl
    | cons a b => rfl
  simp only [classicSplitL, this, Bool.false_eq_true, if_false]
  exact splitGo_join l hl s.length s le_rfl

/-- C6: for every slice and every literal or character separator, the split
engine performs a classic delimiter split from which exactly the empty
artifacts are discarded, preserving the order of the elements between the
separators — the kept elements are the nonempty chunks of a classic split,
the classic split rejoined with the separator recovers the slice, and (for
a character separator) no chunk contains the separator; adjacent separators
therefore produce no empty elements. -/
theorem c6_separator_split :
    (∀ (c : Char) (s : List Char),
        sepElemsRaw (.onChar c) s =
          ((classicSplit c s).filter (fun e => !e.isEmpty)).map
            (fun cs => .strV (String.mk cs)) ∧
        joinSep [c] (classicSplit c s) = s ∧
        ∀ e ∈ classicSplit c s, c ∉ e) ∧
    (∀ (t : String) (s : List Char), t.data ≠ [] →
        sepElemsRaw (.onStr t) s =
          ((classicSplitL t.data s).filter (fun e => !e.isEmpty)).map
            (fun cs => .strV (String.mk cs)) ∧
        joinSep t.data (classicSplitL t.data s) = s) ∧
    sepElemsRaw (.onChar ',') "a,,b".data = [.strV "a", .strV "b"] := by
  refine ⟨fun c s => ⟨rfl, joinSep_classicSplit c s, sep_not_mem_classicSplit c s⟩,
    fun t s ht => ⟨rfl, joinSep_classicSplitL t.data ht s⟩, rfl⟩

/-- Witness for C6's literal-separator part at a concrete separator. -/
theorem c6_separator_split_witness :
    sepElemsRaw (.onStr "ab") "xabyabab".data =
      ((classicSplitL "ab".data "xabyabab".data).filter (fun e => !e.isEmpty)).map
        (fun cs => .strV (String.mk cs)) ∧
    joinSep "ab".data (classicSplitL "ab".data "xabyabab".data) = "xabyabab".data :=
  c6_separator_split.2.1 "ab" "xabyabab".data (by decide)

/-- A `try` typecast over a list of elements keeps exactly the elements the
cast succeeds on, in order, producing no capture events and never failing. -/
theorem runElems_tryCast (b : Bindings) (ty : CastTy) (indexed : Bool) :
    ∀ items : List (Value × Value),
      runElems b (.tryCastE ty) indexed items =
        .ok (items.filterMap (fun p => castV ty (elemInput indexed p.1 p.2)), []) := by
  intro items
  induction items with
  | nil => rfl
  | cons p rest ih =>
    obtain ⟨idx, raw⟩ := p
    simp only [runElems, applyElemT, Bind.bind, Except.bind, ih, List.filterMap_cons]
    cases castV ty (elemInput indexed idx raw) <;> rfl

/-- C7: a `try`-prefixed element transformation silently drops the elements
it fails on instead of aborting the parse — a split with a `try` typecast
always succeeds, collecting exactly the successfully cast elements in order
— and splitting "n33dl3 in 4 h4yst4ck" into characters with `try as u8`
collected into a set yields exactly the set containing 3 and 4. -/
theorem c7_try_drops_failures :
    (∀ (b : Bindings) (sep : Separator) (indexed : Bool) (ty : CastTy) (s : List Char),
        runSplit b ⟨sep, indexed, .collectVec, .tryCastE ty⟩ s =
          .ok (.listV
            (((sepElemsRaw sep s).enum.map (fun p => (Value.natV p.1, p.2))).filterMap
              (fun p => castV ty (elemInput indexed p.1 p.2))), [])) ∧
    parse "n33dl3 in 4 h4yst4ck" [SectionG.assign "nums" .whole
        (some (Transform.splitT ⟨.chars, false, .collectSet, .tryCastE .u8⟩))] =
      .ok [("nums", .listV [.natV 3, .natV 4])] ∧
    ((Value.listV [.natV 3, .natV 4]).beq (.listV [.natV 3, .natV 4])) = true := by
  refine ⟨?_, rfl, rfl⟩
  intro b sep indexed ty s
  simp only [runSplit, runElems_tryCast, Bind.bind, Except.bind, elemCaptures,
    resolveCaptures]

/-- C8: a nested parse runs on the matched substring with a fresh cursor and
its own bindings — its outcome is the same under any two enclosing binding
environments (while transforms in general can read the enclosing bindings,
as the two concrete match-transform runs show), it is exactly the nested
runner applied to the substring and its own section list, referencing a name
outside the nested scope fails the construction-time check, and the nested
invocation must fully consume its substring under the same exhaustion
invariant (a nonempty inner remainder is the fatal unconsumed error, an
empty one evaluates the nested result expression against the inner bindings
only). -/
theorem c8_nested_isolation :
    (∀ (b₁ b₂ : Bindings) (pl : Payload1) (v : Value),
        applyT1 b₁ (.nestedT pl) v = applyT1 b₂ (.nestedT pl) v) ∧
    (∀ (b : Bindings) (pl : Payload1) (v : Value),
        applyT1 b (.nestedT pl) v =
          match runNested1 pl v with
          | .ok w => .ok (w, [])
          | .error e => .error e) ∧
    (∀ (secs : List Section0) (r : RExpr) (n : String),
        n ∈ rexprVars r → (boundNames0 secs).contains n = false →
        checkNested1 (secs, r) = false) ∧
    (∀ (b : Bindings) (secs : List Section0) (r : RExpr) (s : List Char)
        (bi : Bindings) (rem : List Char),
        parse0core secs s = .ok (bi, rem) → rem ≠ [] →
        applyT1 b (.nestedT (secs, r)) (.strV (String.mk s)) =
          .error (.unconsumed (String.mk rem))) ∧
    (∀ (b : Bindings) (secs : List Section0) (r : RExpr) (s : List Char)
        (bi : Bindings),
        parse0core secs s = .ok (bi, []) →
        applyT1 b (.nestedT (secs, r)) (.strV (String.mk s)) =
          match evalRExpr bi r with
          | .ok w => .ok (w, [])
          | .error e => .error e) ∧
    applyT1 [("x", .natV 1)] (.matchT [⟨.pwild, none, some (.varE "x")⟩]) (.strV "q") =
      .ok (.natV 1, []) ∧
    applyT1 [("x", .natV 2)] (.matchT [⟨.pwild, none, some (.varE "x")⟩]) (.strV "q") =
      .ok (.natV 2, []) := by
  refine ⟨fun b₁ b₂ pl v => rfl, fun b pl v => rfl, ?_, ?_, ?_, rfl, rfl⟩
  · intro secs r n hmem hfree
    have hall : ((rexprVars r).all fun m => (boundNames0 secs).contains m) = false := by
      apply Bool.eq_false_iff.mpr
      intro htrue
      have := List.all_eq_true.mp htrue n hmem
      rw [hfree] at this
      exact Bool.false_ne_true this
    simp only [checkNested1, hall, Bool.and_false]
  · intro b secs r s bi rem hrun hne
    show (match runNested1 (secs, r) (.strV (String.mk s)) with
      | .ok w => Except.ok (w, [])
      | .error e => Except.error e) = _
    cases rem with
    | nil => exact absurd rfl hne
    | cons x xs => simp [runNested1, hrun]
  · intro b secs r s bi hrun
    show (match runNested1 (secs, r) (.strV (String.mk s)) with
      | .ok w => Except.ok (w, [])
      | .error e => Except.error e) = _
    simp [runNested1, hrun]

/-- Witness for C8: an out-of-scope name fails the construction-time check,
and a nested parse that leaves its substring partially consumed fails with
the unconsumed error. -/
theorem c8_nested_isolation_witness :
    checkNested1 ([SectionG.assign "l" .whole none], .varE "outer") = false ∧
    applyT1 [] (.nestedT ([SectionG.lit (Lit.litS "ab")], .constE (.natV 0)))
        (.strV "abc") = .error (.unconsumed "c") :=
  ⟨c8_nested_isolation.2.2.1 [SectionG.assign "l" .whole none] (.varE "outer")
      "outer" (by decide) (by decide),
   c8_nested_isolation.2.2.2.1 [] [SectionG.lit (Lit.litS "ab")] (.constE (.natV 0))
      "abc".data [] ['c'] (by rfl) (by decide)⟩

/-- Mapping the value component over an enumeration recovers the list. -/
theorem map_snd_enumFrom (α : Type) (l : List α) :
    ∀ n : Nat, (List.enumFrom n l).map Prod.snd = l := by
  induction l with
  | nil => intro n; rfl
  | cons x xs ih => intro n; simp [List.enumFrom, ih]

/-- A pass-through match (single wildcard arm with no result expression)
over a list of non-indexed elements returns the raw elements unchanged and
records no capture events. -/
theorem runElems_passthrough (b : Bindings) :
    ∀ items : List (Value × Value),
      runElems b (.matchE [⟨.pwild, none, none⟩]) false items =
        .ok (items.map (fun p => p.2), []) := by
  intro items
  induction items with
  | nil => rfl
  | cons p rest ih =>
    obtain ⟨idx, raw⟩ := p
    simp [runElems, applyElemT, elemInput, matchValue, patMatches, armEvents, ih,
      Bind.bind, Except.bind]

/-- C9: a match arm with a pattern but no result expression passes the
matched value through unchanged — when the first arm's pattern accepts the
value, omitting the result yields the value itself with only the arm's
capture events; an arm with no result is interchangeable with the same arm
whose result is the explicit identity expression; and a split whose only
selected arms omit their result expressions returns the untransformed
elements, as does a grid. -/
theorem c9_omitted_result_identity :
    (∀ (b : Bindings) (idx : Option Value) (tm : Bool) (v : Value) (pat : Pattern)
        (cap : Option (CaptureKind × String)) (rest : List MatchArm),
        patMatches pat v = true →
        matchValue b idx tm v (⟨pat, cap, none⟩ :: rest) =
          .ok (some v, armEvents cap idx)) ∧
    (∀ (b : Bindings) (idx : Option Value) (v : Value) (pat : Pattern)
        (cap : Option (CaptureKind × String)) (rest : List MatchArm),
        matchValue b idx false v (⟨pat, cap, none⟩ :: rest) =
          matchValue b idx false v (⟨pat, cap, some .selfE⟩ :: rest)) ∧
    (∀ (b : Bindings) (sep : Separator) (s : List Char),
        runSplit b ⟨sep, false, .collectVec, .matchE [⟨.pwild, none, none⟩]⟩ s =
          .ok (.listV (sepElemsRaw sep s), [])) ∧
    parse "ab\ncd" [SectionG.assign "grid" .whole
        (some (Transform.cellsT ⟨false, .matchE [⟨.pwild, none, none⟩]⟩))] =
      .ok [("grid", .listV [.listV [.chrV 'a', .chrV 'b'],
                            .listV [.chrV 'c', .chrV 'd']])] := by
  refine ⟨?_, ?_, ?_, rfl⟩
  · intro b idx tm v pat cap rest hpat
    simp [matchValue, hpat]
  · intro b idx v pat cap rest
    by_cases hpat : patMatches pat v = true
    · simp [matchValue, hpat, evalArmResult]
    · simp [matchValue, hpat]
  · intro b sep s
    simp only [runSplit, runElems_passthrough, Bind.bind, Except.bind, elemCaptures,
      List.filterMap_nil, resolveCaptures, List.map_map]
    have hsnd : ((sepElemsRaw sep s).enum.map
        (fun p => (Value.natV p.1, p.2))).map (fun p => p.2) = sepElemsRaw sep s := by
      rw [List.map_map]
      exact map_snd_enumFrom Value (sepElemsRaw sep s) 0
    rw [List.map_map] at hsnd
    simp [hsnd]

/-- Witness for C9's pass-through equation at a concrete accepted value. -/
theorem c9_omitted_result_identity_witness :
    matchValue [] none false (.strV "z") [⟨.pwild, none, none⟩] =
      .ok (some (.strV "z"), armEvents none none) :=
  c9_omitted_result_identity.1 [] none false (.strV "z") .pwild none [] (by rfl)

/-- A nonempty list is its default head consed onto its tail. -/
theorem headD_cons_tail (α : Type) (l : List α) (d : α) (h : l ≠ []) :
    l.headD d :: l.tail = l := by
  cases l with
  | nil => exact absurd rfl h
  | cons x xs => rfl

/-- The space scanner relates to the classic split on the space character:
with accumulator `acc` it yields the nonempty chunks of the classic split,
the pending accumulator prepended to the first chunk. -/
theorem spaceSplitAux_classicSplit :
    ∀ (s : List Char) (acc : List Char),
      spaceSplitAux acc s =
        ((acc.reverse ++ (classicSplit ' ' s).headD []) ::
            (classicSplit ' ' s).tail).filter (fun e => !e.isEmpty) := by
  intro s
  induction s with
  | nil =>
    intro acc
    cases acc with
    | nil => rfl
    | cons a as => simp [spaceSplitAux, classicSplit]
  | cons x xs ih =>
    intro acc
    have hne := classicSplit_ne_nil ' ' xs
    have hr := headD_cons_tail (List Char) (classicSplit ' ' xs) [] hne
    by_cases hx : x = ' '
    · subst hx
      have hcs : classicSplit ' ' (' ' :: xs) = [] :: classicSplit ' ' xs := by
        simp [classicSplit]
      rw [hcs]
      cases acc with
      | nil =>
        rw [List.headD_eq_head?] at hr
        simp only [spaceSplitAux, List.isEmpty_nil, if_pos, ih]
        simp [hr]
      | cons a as =>
        rw [List.headD_eq_head?] at hr
        simp only [spaceSplitAux, List.isEmpty_cons, ih]
        simp [hr]
    · cases hcs : classicSplit ' ' xs with
      | nil => exact absurd hcs hne
      | cons h t =>
        have hcs2 : classicSplit ' ' (x :: xs) = (x :: h) :: t := by
          simp [classicSplit, hx, hcs]
        rw [hcs2]
        simp only [spaceSplitAux, hx, if_neg, ih, hcs]
        simp [List.append_assoc]

/-- The bare `split` produces the same raw elements as `split on ' '`. -/
theorem sepElemsRaw_bare (s : List Char) :
    sepElemsRaw .bare s = sepElemsRaw (.onChar ' ') s := by
  have hne := classicSplit_ne_nil ' ' s
  have hr := headD_cons_tail (List Char) (classicSplit ' ' s) [] hne
  simp only [sepElemsRaw, spaceSplitAux_classicSplit s [], List.reverse_nil,
    List.nil_append, hr]

/-- C10: a split written with the bare `split` keyword is exactly equivalent
to one written `split on ' '`: the raw element sequences coincide on every
slice, and a full split invocation — any index mode, destination and element
transformation, under any bindings — produces the identical value and the
identical capture bindings. -/
theorem c10_bare_split_equiv :
    (∀ s : List Char, sepElemsRaw .bare s = sepElemsRaw (.onChar ' ') s) ∧
    (∀ (b : Bindings) (indexed : Bool) (dest : Dest) (elem : ElemTransform)
        (s : List Char),
        runSplit b ⟨.bare, indexed, dest, elem⟩ s =
          runSplit b ⟨.onChar ' ', indexed, dest, elem⟩ s) := by
  refine ⟨sepElemsRaw_bare, ?_⟩
  intro b indexed dest elem s
  simp only [runSplit, sepElemsRaw_bare]

end AoCParse
